import Mathlib

/-!
Verification of the `frozen::set` sorted-set container
(`src/include/frozen/set.h` of wangjieest/frozen).

The container is shallowly embedded over Lean lists: the fixed storage
`bits::carray<Key, N>` becomes a `List α` whose length plays the role of
the type-level capacity `N`, iterators become `Nat` indices with `N`
standing for `end()`, and the caller-supplied comparator becomes a
boolean predicate `α → α → Bool`.

The `bits::` algorithm layer (`frozen/bits/algorithms.h`) and the
assertion facility (`frozen/bits/constexpr_assert.h`) are part of the
repository but are not under `src/`; the definitions below that stand
for them are modelled from the spec and are marked as such in their doc
comments.  Everything in the `set` namespace is translated directly from
`src/include/frozen/set.h`.
-/

namespace frozen

variable {α : Type}

/-- A valid comparator in the sense of the spec (§6): a strict weak
ordering given as a boolean predicate.  The three components are
irreflexivity, transitivity, and transitivity of the negation (the
latter is equivalent to transitivity of incomparability for a relation
that is irreflexive and transitive). -/
def IsSWO (lt : α → α → Bool) : Prop :=
  (∀ a, lt a a = false) ∧
  (∀ a b c, lt a b = true → lt b c = true → lt a c = true) ∧
  (∀ a b c, lt a b = false → lt b c = false → lt a c = false)

namespace bits

/-- Modelled from the spec: `frozen::bits::lower_bound` from
`frozen/bits/algorithms.h`, which is not under `src/`.  Spec §4.2:
"returns the position of the first element not ordered before `key`
(standard binary-search lower bound); if no such element exists, returns
the end position".  Positions are indices; the end position is the
length of the storage. -/
def lower_bound (lt : α → α → Bool) (key : α) : List α → Nat
  | [] => 0
  | x :: xs => if lt x key then lower_bound lt key xs + 1 else 0

/-- Modelled from the spec: `frozen::bits::binary_search` from
`frozen/bits/algorithms.h`, which is not under `src/`.  Spec §4.2: the
membership test behind `count` — it locates the lower bound and reports
1 exactly when that position holds an element that `key` is not ordered
before (hence comparator-equal to `key`), else 0. -/
def binary_search (lt : α → α → Bool) (key : α) (l : List α) : Nat :=
  let w := lower_bound lt key l
  if w < l.length ∧ lt key (l.getD w key) = false then 1 else 0

/-- Modelled from the spec: `frozen::bits::quicksort` from
`frozen/bits/algorithms.h`, which is not under `src/`.  Spec §4.1:
"recursively select a pivot, partition elements into
less-than/not-less-than groups under the comparator, recurse on each
partition, terminate when a partition has at most one element".  The
`fuel` argument bounds the recursion depth structurally; each recursive
call is on a strictly shorter list, so fuel equal to the input length
(supplied by `quicksort` below) always suffices. -/
def quicksortF (lt : α → α → Bool) : Nat → List α → List α
  | _, [] => []
  | 0, l => l
  | fuel + 1, p :: rest =>
      quicksortF lt fuel (rest.filter fun x => lt x p) ++
        p :: quicksortF lt fuel (rest.filter fun x => !lt x p)

/-- Modelled from the spec: the Sort Engine entry point
(`bits::quicksort(keys, compare_)` as called at `set.h:61`). -/
def quicksort (lt : α → α → Bool) (l : List α) : List α :=
  quicksortF lt l.length l

end bits

/-- The container `frozen::set<Key, N, Compare>` (`set.h:33`): it owns a
comparator `compare_` and the sorted storage `keys_`.  The type-level
capacity `N` is `keys_.length`. -/
structure set (α : Type) where
  compare_ : α → α → Bool
  keys_ : List α

namespace set

/-- The constructor `set(container_type keys, Compare const & comp)`
(`set.h:59-62`): stores the comparator and the quicksorted keys. -/
def ofKeys (keys : List α) (comp : α → α → Bool) : set α :=
  { compare_ := comp, keys_ := bits.quicksort comp keys }

/-- `begin()` (`set.h:122`) as an index. -/
def beginPos (_ : set α) : Nat := 0

/-- `end()` (`set.h:124`) as an index: one past the last element. -/
def endPos (s : set α) : Nat := s.keys_.length

/-- `empty()` (`set.h:76`): `!N`. -/
def empty (s : set α) : Bool := s.keys_.length == 0

/-- `size()` (`set.h:77`): `N`. -/
def size (s : set α) : Nat := s.keys_.length

/-- `max_size()` (`set.h:78`): `N`. -/
def max_size (s : set α) : Nat := s.keys_.length

/-- `count(key)` (`set.h:81-83`): delegates to `bits::binary_search`. -/
def count (s : set α) (key : α) : Nat :=
  bits.binary_search s.compare_ key s.keys_

/-- `lower_bound(key)` (`set.h:101-107`): computes `bits::lower_bound`
and keeps the position only when it is dereferenceable and `key` does
not compare before the element there; otherwise returns `end()`. -/
def lower_bound (s : set α) (key : α) : Nat :=
  let w := bits.lower_bound s.compare_ key s.keys_
  if w ≠ s.endPos ∧ s.compare_ key (s.keys_.getD w key) = false then w
  else s.endPos

/-- `find(key)` (`set.h:85-91`): takes `lower_bound(key)` and re-checks
that the element there is not compared after `key`. -/
def find (s : set α) (key : α) : Nat :=
  let w := s.lower_bound key
  if w ≠ s.endPos ∧ s.compare_ key (s.keys_.getD w key) = false then w
  else s.endPos

/-- `equal_range(key)` (`set.h:93-99`): `(lower, lower)` when
`lower_bound` missed, else `(lower, lower + 1)`. -/
def equal_range (s : set α) (key : α) : Nat × Nat :=
  let lower := s.lower_bound key
  if lower = s.endPos then (lower, lower) else (lower, lower + 1)

/-- `upper_bound(key)` (`set.h:109-115`): like `lower_bound` but
returns one past the position on a hit. -/
def upper_bound (s : set α) (key : α) : Nat :=
  let w := bits.lower_bound s.compare_ key s.keys_
  if w ≠ s.endPos ∧ s.compare_ key (s.keys_.getD w key) = false then w + 1
  else s.endPos

/-- Modelled from the spec: the initializer-list constructor
`set(std::initializer_list<Key> keys, Compare const & comp)`
(`set.h:67-70`).  Its `constexpr_assert(keys.size() == N, ...)` comes
from `frozen/bits/constexpr_assert.h`, which is not under `src/`; spec
§4.3 and §7 describe it as a hard construction-time failure after which
no container value is produced, so the fallible construction is embedded
as an `Option` that is `none` exactly when the supplied key count
differs from the declared capacity `N`. -/
def ofLiteral (N : Nat) (keys : List α) (comp : α → α → Bool) : Option (set α) :=
  if keys.length = N then some (ofKeys keys comp) else none

end set

/-- The specialization `frozen::set<Key, 0, Compare>` (`set.h:133-195`):
no storage is materialized, only the comparator is retained. -/
structure set0 (α : Type) where
  compare_ : α → α → Bool

namespace set0

/-- `begin()` of the empty specialization (`set.h:186`): `nullptr`,
embedded as index 0. -/
def beginPos (_ : set0 α) : Nat := 0

/-- `end()` of the empty specialization (`set.h:188`): `nullptr`,
embedded as index 0. -/
def endPos (_ : set0 α) : Nat := 0

/-- `empty()` (`set.h:165`). -/
def empty (_ : set0 α) : Bool := true

/-- `size()` (`set.h:166`). -/
def size (_ : set0 α) : Nat := 0

/-- `max_size()` (`set.h:167`). -/
def max_size (_ : set0 α) : Nat := 0

/-- `count(key)` (`set.h:170`). -/
def count (_ : set0 α) (_ : α) : Nat := 0

/-- `find(key)` (`set.h:172`): `end()`. -/
def find (s : set0 α) (_ : α) : Nat := s.endPos

/-- `equal_range(key)` (`set.h:174-175`): `(end(), end())`. -/
def equal_range (s : set0 α) (_ : α) : Nat × Nat := (s.endPos, s.endPos)

/-- `lower_bound(key)` (`set.h:177`): `end()`. -/
def lower_bound (s : set0 α) (_ : α) : Nat := s.endPos

/-- `upper_bound(key)` (`set.h:179`): `end()`. -/
def upper_bound (s : set0 α) (_ : α) : Nat := s.endPos

end set0

/-- Specification-side predicate: some element of `l` is
comparator-equal to `key` (neither orders before the other). -/
def containsEq (lt : α → α → Bool) (key : α) (l : List α) : Bool :=
  l.any fun x => !lt x key && !lt key x

/-! ## Theorems -/

theorem IsSWO.asymm {lt : α → α → Bool} (h : IsSWO lt) {a b : α}
    (hab : lt a b = true) : lt b a = false := by
  rcases h with ⟨hirr, htrans, _⟩
  by_contra hba
  simp only [Bool.not_eq_false] at hba
  have := htrans a b a hab hba
  rw [hirr a] at this
  exact Bool.false_ne_true this

theorem blt_true_iff (a b : Nat) : Nat.blt a b = true ↔ a < b := by
  simp only [Nat.blt, Nat.ble_eq]
  omega

theorem blt_false_iff (a b : Nat) : Nat.blt a b = false ↔ b ≤ a := by
  rw [← Bool.not_eq_true, blt_true_iff]
  omega

/-- `Nat.blt` (strict less-than on naturals) is a valid comparator. -/
theorem blt_isSWO : IsSWO Nat.blt := by
  refine ⟨fun a => ?_, fun a b c hab hbc => ?_, fun a b c hab hbc => ?_⟩ <;>
    simp only [blt_true_iff, blt_false_iff] at * <;> omega

/-! ### List-indexing helpers (total indexing via `List.getD`) -/

theorem getD_mem_of_lt (d : α) :
    ∀ (l : List α) (n : Nat), n < l.length → l.getD n d ∈ l
  | x :: xs, 0, _ => by simp
  | x :: xs, n + 1, h => by
    simp only [List.getD_cons_succ, List.mem_cons]
    exact Or.inr (getD_mem_of_lt d xs n (Nat.lt_of_succ_lt_succ h))

theorem exists_getD_of_mem (d : α) :
    ∀ {l : List α} {x : α}, x ∈ l → ∃ n, n < l.length ∧ l.getD n d = x := by
  intro l
  induction l with
  | nil => intro x hx; cases hx
  | cons a l ih =>
    intro x hx
    rcases List.mem_cons.mp hx with h | h
    · exact ⟨0, Nat.succ_pos _, by simp [h]⟩
    · rcases ih h with ⟨n, hn, hg⟩
      exact ⟨n + 1, Nat.succ_lt_succ hn, by simpa using hg⟩

theorem pairwise_getD {R : α → α → Prop} (d : α) :
    ∀ (l : List α), l.Pairwise R → ∀ i j, i < j → j < l.length →
      R (l.getD i d) (l.getD j d) := by
  intro l
  induction l with
  | nil => intro _ i j _ hj; cases hj
  | cons a l ih =>
    intro hp i j hij hj
    rcases List.pairwise_cons.mp hp with ⟨ha, hl⟩
    match i, j with
    | 0, j + 1 =>
      simp only [List.getD_cons_zero, List.getD_cons_succ]
      exact ha _ (getD_mem_of_lt d l j (Nat.lt_of_succ_lt_succ hj))
    | i + 1, j + 1 =>
      simp only [List.getD_cons_succ]
      exact ih hl i j (Nat.lt_of_succ_lt_succ hij) (Nat.lt_of_succ_lt_succ hj)

namespace bits

/-! ### Properties of the Search Engine primitive `bits::lower_bound` -/

theorem lower_bound_le_length (lt : α → α → Bool) (key : α) :
    ∀ l : List α, lower_bound lt key l ≤ l.length
  | [] => Nat.le_refl 0
  | x :: xs => by
    rw [lower_bound]
    cases h : lt x key with
    | false => simp
    | true => simpa using Nat.succ_le_succ (lower_bound_le_length lt key xs)

theorem lt_key_of_lt_lower_bound (lt : α → α → Bool) (key d : α) :
    ∀ (l : List α) (j : Nat), j < lower_bound lt key l →
      lt (l.getD j d) key = true
  | [], j, hj => by simp [lower_bound] at hj
  | x :: xs, j, hj => by
    rw [lower_bound] at hj
    cases h : lt x key with
    | false => rw [h] at hj; simp at hj
    | true =>
      rw [h] at hj
      simp only [if_true] at hj
      match j with
      | 0 => simpa using h
      | j + 1 =>
        simp only [List.getD_cons_succ]
        exact lt_key_of_lt_lower_bound lt key d xs j (Nat.lt_of_succ_lt_succ hj)

theorem lower_bound_getD_not_lt (lt : α → α → Bool) (key d : α) :
    ∀ (l : List α), lower_bound lt key l < l.length →
      lt (l.getD (lower_bound lt key l) d) key = false
  | [], h => by simp [lower_bound] at h
  | x :: xs, h => by
    rw [lower_bound] at h ⊢
    cases hx : lt x key with
    | false => simpa using hx
    | true =>
      rw [hx] at h
      simp only [if_true, List.length_cons] at h
      simpa using lower_bound_getD_not_lt lt key d xs (Nat.lt_of_succ_lt_succ h)

/-- On a sorted storage, if some element is comparator-equal to `key`
then `lower_bound` lands inside the storage, on an element that `key`
does not order before. -/
theorem lower_bound_finds (lt : α → α → Bool) (key d : α) (hswo : IsSWO lt)
    (l : List α) (hs : l.Pairwise fun a b => lt b a = false)
    {x : α} (hxl : x ∈ l) (hx1 : lt x key = false) (hx2 : lt key x = false) :
    lower_bound lt key l < l.length ∧
      lt key (l.getD (lower_bound lt key l) d) = false := by
  rcases exists_getD_of_mem d hxl with ⟨j, hj, hjx⟩
  have hwle : lower_bound lt key l ≤ j := by
    by_contra hcon
    have := lt_key_of_lt_lower_bound lt key d l j (Nat.lt_of_not_le hcon)
    rw [hjx, hx1] at this
    exact Bool.false_ne_true this
  have hlt : lower_bound lt key l < l.length := Nat.lt_of_le_of_lt hwle hj
  refine ⟨hlt, ?_⟩
  rcases Nat.lt_or_ge (lower_bound lt key l) j with hlj | hge
  · have hsij := pairwise_getD d l hs _ _ hlj hj
    rw [hjx] at hsij
    exact hswo.2.2 key x _ hx2 hsij
  · have : lower_bound lt key l = j := Nat.le_antisymm hwle hge
    rw [this, hjx]
    exact hx2

/-! ### Properties of the Sort Engine -/

theorem quicksortF_perm (lt : α → α → Bool) :
    ∀ (fuel : Nat) (l : List α), l.length ≤ fuel →
      (quicksortF lt fuel l).Perm l := by
  intro fuel
  induction fuel with
  | zero =>
    intro l hl
    match l with
    | [] => simp [quicksortF]
  | succ fuel ih =>
    intro l hl
    match l with
    | [] => simp [quicksortF]
    | p :: rest =>
      have hrest : rest.length ≤ fuel := by
        simpa using Nat.le_of_succ_le_succ hl
      have h1 := ih (rest.filter fun x => lt x p)
        (Nat.le_trans (List.length_filter_le _ _) hrest)
      have h2 := ih (rest.filter fun x => !lt x p)
        (Nat.le_trans (List.length_filter_le _ _) hrest)
      rw [quicksortF]
      refine List.Perm.trans (h1.append (h2.cons p)) (List.Perm.trans List.perm_middle ?_)
      exact (List.filter_append_perm _ rest).cons p

theorem quicksort_perm (lt : α → α → Bool) (l : List α) :
    (quicksort lt l).Perm l :=
  quicksortF_perm lt l.length l (Nat.le_refl _)

theorem mem_quicksort (lt : α → α → Bool) (l : List α) (x : α) :
    x ∈ quicksort lt l ↔ x ∈ l :=
  (quicksort_perm lt l).mem_iff

theorem quicksortF_pairwise (lt : α → α → Bool) (hswo : IsSWO lt) :
    ∀ (fuel : Nat) (l : List α), l.length ≤ fuel →
      (quicksortF lt fuel l).Pairwise fun a b => lt b a = false := by
  intro fuel
  induction fuel with
  | zero =>
    intro l hl
    match l with
    | [] => simp [quicksortF]
  | succ fuel ih =>
    intro l hl
    match l with
    | [] => simp [quicksortF]
    | p :: rest =>
      have hrest : rest.length ≤ fuel := by
        simpa using Nat.le_of_succ_le_succ hl
      have hless : (rest.filter fun x => lt x p).length ≤ fuel :=
        Nat.le_trans (List.length_filter_le _ _) hrest
      have hnl : (rest.filter fun x => !lt x p).length ≤ fuel :=
        Nat.le_trans (List.length_filter_le _ _) hrest
      have hmem1 : ∀ a ∈ quicksortF lt fuel (rest.filter fun x => lt x p),
          lt a p = true := by
        intro a ha
        have : a ∈ rest.filter fun x => lt x p :=
          ((quicksortF_perm lt fuel _ hless).mem_iff).mp ha
        simpa using List.of_mem_filter this
      have hmem2 : ∀ b ∈ quicksortF lt fuel (rest.filter fun x => !lt x p),
          lt b p = false := by
        intro b hb
        have : b ∈ rest.filter fun x => !lt x p :=
          ((quicksortF_perm lt fuel _ hnl).mem_iff).mp hb
        simpa using List.of_mem_filter this
      rw [quicksortF, List.pairwise_append]
      refine ⟨ih _ hless, ?_, ?_⟩
      · rw [List.pairwise_cons]
        exact ⟨hmem2, ih _ hnl⟩
      · intro a ha b hb
        rcases List.mem_cons.mp hb with rfl | hb2
        · exact hswo.asymm (hmem1 a ha)
        · by_contra hba
          simp only [Bool.not_eq_false] at hba
          have := hswo.2.1 b a p hba (hmem1 a ha)
          rw [hmem2 b hb2] at this
          exact Bool.false_ne_true this

theorem quicksort_pairwise (lt : α → α → Bool) (hswo : IsSWO lt) (l : List α) :
    (quicksort lt l).Pairwise fun a b => lt b a = false :=
  quicksortF_pairwise lt hswo l.length l (Nat.le_refl _)

end bits

theorem containsEq_iff (lt : α → α → Bool) (key : α) (l : List α) :
    containsEq lt key l = true ↔
      ∃ x ∈ l, lt x key = false ∧ lt key x = false := by
  simp [containsEq, List.any_eq_true, Bool.and_eq_true]

theorem containsEq_perm (lt : α → α → Bool) (key : α) {l₁ l₂ : List α}
    (hp : l₁.Perm l₂) : containsEq lt key l₁ = containsEq lt key l₂ := by
  rw [Bool.eq_iff_iff, containsEq_iff, containsEq_iff]
  constructor
  · rintro ⟨x, hx, h⟩; exact ⟨x, hp.mem_iff.mp hx, h⟩
  · rintro ⟨x, hx, h⟩; exact ⟨x, hp.mem_iff.mpr hx, h⟩

theorem containsEq_of_mem {keys : List α} {comp : α → α → Bool} {key : α}
    (hirr : ∀ a, comp a a = false) (hx : key ∈ keys) :
    containsEq comp key keys = true :=
  (containsEq_iff comp key keys).mpr ⟨key, hx, hirr key, hirr key⟩

namespace set

/-! ### Closed forms of the `set` member functions -/

theorem lower_bound_eq (s : set α) (key : α) :
    s.lower_bound key =
      if bits.lower_bound s.compare_ key s.keys_ ≠ s.endPos ∧
          s.compare_ key
            (s.keys_.getD (bits.lower_bound s.compare_ key s.keys_) key) = false
      then bits.lower_bound s.compare_ key s.keys_
      else s.endPos := rfl

theorem find_eq (s : set α) (key : α) :
    s.find key =
      if s.lower_bound key ≠ s.endPos ∧
          s.compare_ key (s.keys_.getD (s.lower_bound key) key) = false
      then s.lower_bound key
      else s.endPos := rfl

theorem upper_bound_eq (s : set α) (key : α) :
    s.upper_bound key =
      if bits.lower_bound s.compare_ key s.keys_ ≠ s.endPos ∧
          s.compare_ key
            (s.keys_.getD (bits.lower_bound s.compare_ key s.keys_) key) = false
      then bits.lower_bound s.compare_ key s.keys_ + 1
      else s.endPos := rfl

theorem equal_range_eq (s : set α) (key : α) :
    s.equal_range key =
      if s.lower_bound key = s.endPos then (s.lower_bound key, s.lower_bound key)
      else (s.lower_bound key, s.lower_bound key + 1) := rfl

theorem count_eq (s : set α) (key : α) :
    s.count key =
      if bits.lower_bound s.compare_ key s.keys_ < s.keys_.length ∧
          s.compare_ key
            (s.keys_.getD (bits.lower_bound s.compare_ key s.keys_) key) = false
      then 1 else 0 := rfl

/-- `lower_bound` either misses (returns `end()`), or returns the
`bits::lower_bound` position, which is in range and holds an element
comparator-equal to the key.  No sortedness assumption is needed for
this dichotomy. -/
theorem lower_bound_cases (s : set α) (key : α) :
    s.lower_bound key = s.endPos ∨
      (s.lower_bound key = bits.lower_bound s.compare_ key s.keys_ ∧
       s.lower_bound key < s.size ∧
       s.compare_ key (s.keys_.getD (s.lower_bound key) key) = false ∧
       s.compare_ (s.keys_.getD (s.lower_bound key) key) key = false) := by
  rw [lower_bound_eq]
  split
  case isFalse => exact Or.inl rfl
  case isTrue h =>
    rcases h with ⟨hne, hkey⟩
    have hle := bits.lower_bound_le_length s.compare_ key s.keys_
    have hlt : bits.lower_bound s.compare_ key s.keys_ < s.keys_.length :=
      Nat.lt_of_le_of_ne hle hne
    exact Or.inr ⟨rfl, hlt, hkey,
      bits.lower_bound_getD_not_lt s.compare_ key key s.keys_ hlt⟩

/-- `find` coincides with `lower_bound` on every instance: the member
function re-checks a condition that `lower_bound` already ensured. -/
theorem find_eq_lower_bound (s : set α) (key : α) :
    s.find key = s.lower_bound key := by
  rw [find_eq]
  rcases lower_bound_cases s key with h | ⟨_, hlt, hkey, _⟩
  · rw [h]
    simp
  · have hne : s.lower_bound key ≠ s.endPos := Nat.ne_of_lt hlt
    rw [if_pos ⟨hne, hkey⟩]

/-- If no stored element is comparator-equal to the key, `lower_bound`
returns `end()`.  No sortedness assumption is needed. -/
theorem lower_bound_miss (s : set α) (key : α)
    (hc : containsEq s.compare_ key s.keys_ = false) :
    s.lower_bound key = s.endPos := by
  rcases lower_bound_cases s key with h | ⟨_, hlt, hkey, hkey2⟩
  · exact h
  · exfalso
    have hmem := getD_mem_of_lt key s.keys_ (s.lower_bound key) hlt
    have : containsEq s.compare_ key s.keys_ = true :=
      (containsEq_iff _ _ _).mpr ⟨_, hmem, hkey2, hkey⟩
    rw [hc] at this
    exact Bool.false_ne_true this

/-- On a sorted instance with a valid comparator, if some stored element
is comparator-equal to the key then `lower_bound` hits: it returns the
`bits::lower_bound` position, in range, holding a comparator-equal
element. -/
theorem lower_bound_hit (s : set α) (key : α) (hswo : IsSWO s.compare_)
    (hs : s.keys_.Pairwise fun a b => s.compare_ b a = false)
    (hc : containsEq s.compare_ key s.keys_ = true) :
    s.lower_bound key = bits.lower_bound s.compare_ key s.keys_ ∧
      s.lower_bound key < s.size ∧
      s.compare_ key (s.keys_.getD (s.lower_bound key) key) = false ∧
      s.compare_ (s.keys_.getD (s.lower_bound key) key) key = false := by
  rcases (containsEq_iff _ _ _).mp hc with ⟨x, hxl, hx1, hx2⟩
  have hf := bits.lower_bound_finds s.compare_ key key hswo s.keys_ hs hxl hx1 hx2
  rcases lower_bound_cases s key with h | hgood
  · exfalso
    rw [lower_bound_eq] at h
    rw [if_pos ⟨Nat.ne_of_lt hf.1, hf.2⟩] at h
    exact absurd h (Nat.ne_of_lt hf.1)
  · exact hgood

/-- On a sorted instance with a valid comparator, `count` is the
indicator of comparator-equal membership. -/
theorem count_eq_ite (s : set α) (key : α) (hswo : IsSWO s.compare_)
    (hs : s.keys_.Pairwise fun a b => s.compare_ b a = false) :
    s.count key = if containsEq s.compare_ key s.keys_ then 1 else 0 := by
  rw [count_eq]
  cases hc : containsEq s.compare_ key s.keys_ with
  | true =>
    rcases (containsEq_iff _ _ _).mp hc with ⟨x, hxl, hx1, hx2⟩
    have hf := bits.lower_bound_finds s.compare_ key key hswo s.keys_ hs hxl hx1 hx2
    rw [if_pos ⟨hf.1, hf.2⟩]
    simp
  | false =>
    have hcond : ¬ (bits.lower_bound s.compare_ key s.keys_ < s.keys_.length ∧
        s.compare_ key
          (s.keys_.getD (bits.lower_bound s.compare_ key s.keys_) key) = false) := by
      rintro ⟨hlt, hkey⟩
      have hmem := getD_mem_of_lt key s.keys_ _ hlt
      have h2 := bits.lower_bound_getD_not_lt s.compare_ key key s.keys_ hlt
      have : containsEq s.compare_ key s.keys_ = true :=
        (containsEq_iff _ _ _).mpr ⟨_, hmem, h2, hkey⟩
      rw [hc] at this
      exact Bool.false_ne_true this
    rw [if_neg hcond]
    simp

/-- If no stored element is comparator-equal to the key, `upper_bound`
returns `end()`.  No sortedness assumption is needed. -/
theorem upper_bound_miss (s : set α) (key : α)
    (hc : containsEq s.compare_ key s.keys_ = false) :
    s.upper_bound key = s.endPos := by
  rw [upper_bound_eq]
  apply if_neg
  rintro ⟨hne, hkey⟩
  have hlt : bits.lower_bound s.compare_ key s.keys_ < s.keys_.length :=
    Nat.lt_of_le_of_ne (bits.lower_bound_le_length s.compare_ key s.keys_) hne
  have hmem := getD_mem_of_lt key s.keys_ _ hlt
  have h2 := bits.lower_bound_getD_not_lt s.compare_ key key s.keys_ hlt
  have : containsEq s.compare_ key s.keys_ = true :=
    (containsEq_iff _ _ _).mpr ⟨_, hmem, h2, hkey⟩
  rw [hc] at this
  exact Bool.false_ne_true this

/-! ### The constructed container -/

theorem ofKeys_compare (keys : List α) (comp : α → α → Bool) :
    (ofKeys keys comp).compare_ = comp := rfl

theorem ofKeys_keys (keys : List α) (comp : α → α → Bool) :
    (ofKeys keys comp).keys_ = bits.quicksort comp keys := rfl

theorem ofKeys_perm (keys : List α) (comp : α → α → Bool) :
    (ofKeys keys comp).keys_.Perm keys :=
  bits.quicksort_perm comp keys

theorem ofKeys_sorted (keys : List α) (comp : α → α → Bool) (hswo : IsSWO comp) :
    (ofKeys keys comp).keys_.Pairwise fun a b => comp b a = false :=
  bits.quicksort_pairwise comp hswo keys

theorem containsEq_ofKeys (keys : List α) (comp : α → α → Bool) (key : α) :
    containsEq comp key (ofKeys keys comp).keys_ = containsEq comp key keys :=
  containsEq_perm comp key (ofKeys_perm keys comp)

end set

/-! ## Claims -/

/-- C1: for every input sequence of keys and every valid comparator,
after construction the stored key sequence is sorted under that
comparator: at every adjacent pair of positions `i, i+1`, the element at
`i+1` does not compare less than the element at `i`.  Every query
operation of the embedding is a pure function of the container that
returns no new container (the `const` member functions of the source),
so the stored sequence — and with it this predicate — still holds after
every subsequent query-only operation. -/
theorem C1_construction_sorted (keys : List α) (comp : α → α → Bool)
    (hswo : IsSWO comp) (d : α) (i : Nat)
    (h : i + 1 < (set.ofKeys keys comp).size) :
    comp ((set.ofKeys keys comp).keys_.getD (i + 1) d)
      ((set.ofKeys keys comp).keys_.getD i d) = false :=
  pairwise_getD d _ (set.ofKeys_sorted keys comp hswo) i (i + 1)
    (Nat.lt_succ_self i) h

theorem C1_witness :
    IsSWO Nat.blt ∧ 0 + 1 < (set.ofKeys [5, 3, 1, 4, 2] Nat.blt).size ∧
      Nat.blt ((set.ofKeys [5, 3, 1, 4, 2] Nat.blt).keys_.getD (0 + 1) 0)
        ((set.ofKeys [5, 3, 1, 4, 2] Nat.blt).keys_.getD 0 0) = false :=
  ⟨blt_isSWO, by decide,
    C1_construction_sorted [5, 3, 1, 4, 2] Nat.blt blt_isSWO 0 0 (by decide)⟩

/-- C2 counterexample: on the set built from `[1, 2, 3]` with the
natural ordering, the key `0` compares less than every stored key, yet
`lower_bound 0` returns the end position (3), not the begin position (0)
that the claim requires. -/
theorem C2_counterexample :
    (∀ x ∈ (set.ofKeys [1, 2, 3] Nat.blt).keys_, Nat.blt 0 x = true) ∧
      (set.ofKeys [1, 2, 3] Nat.blt).lower_bound 0 =
        (set.ofKeys [1, 2, 3] Nat.blt).endPos ∧
      (set.ofKeys [1, 2, 3] Nat.blt).lower_bound 0 ≠
        (set.ofKeys [1, 2, 3] Nat.blt).beginPos := by
  decide

/-- C2 (amended): `lower_bound(K)` returns the position of the first
stored element not ordered before `K` exactly when that element exists
and is comparator-equal to `K` (i.e. `K` does not order before it
either); in every other case it returns the end position.  In
particular, for every `K` that compares greater than every stored key it
returns the end position, and for every `K` that compares less than
every stored key it also returns the end position — not the begin
position. -/
theorem C2_lower_bound_amended (keys : List α) (comp : α → α → Bool)
    (key : α) (hswo : IsSWO comp) (hpos : 0 < (set.ofKeys keys comp).size) :
    (containsEq comp key (set.ofKeys keys comp).keys_ = true →
      (set.ofKeys keys comp).lower_bound key < (set.ofKeys keys comp).size ∧
      comp ((set.ofKeys keys comp).keys_.getD
        ((set.ofKeys keys comp).lower_bound key) key) key = false ∧
      comp key ((set.ofKeys keys comp).keys_.getD
        ((set.ofKeys keys comp).lower_bound key) key) = false ∧
      (∀ j, j < (set.ofKeys keys comp).lower_bound key →
        comp ((set.ofKeys keys comp).keys_.getD j key) key = true)) ∧
    (containsEq comp key (set.ofKeys keys comp).keys_ = false →
      (set.ofKeys keys comp).lower_bound key = (set.ofKeys keys comp).endPos) ∧
    ((∀ x ∈ (set.ofKeys keys comp).keys_, comp key x = true) →
      (set.ofKeys keys comp).lower_bound key = (set.ofKeys keys comp).endPos) ∧
    ((∀ x ∈ (set.ofKeys keys comp).keys_, comp x key = true) →
      (set.ofKeys keys comp).lower_bound key = (set.ofKeys keys comp).endPos) := by
  refine ⟨fun hc => ?_, fun hc => set.lower_bound_miss _ _ hc, fun hall => ?_, fun hall => ?_⟩
  · rcases set.lower_bound_hit (set.ofKeys keys comp) key hswo
      (set.ofKeys_sorted keys comp hswo) hc with ⟨heq, hlt, h1, h2⟩
    refine ⟨hlt, h2, h1, fun j hj => ?_⟩
    rw [heq] at hj
    exact bits.lt_key_of_lt_lower_bound comp key key _ j hj
  · apply set.lower_bound_miss
    rw [set.ofKeys_compare]
    by_contra hcon
    simp only [Bool.not_eq_false] at hcon
    rcases (containsEq_iff _ _ _).mp hcon with ⟨x, hx, _, h2⟩
    rw [hall x hx] at h2
    exact Bool.false_ne_true h2.symm
  · apply set.lower_bound_miss
    rw [set.ofKeys_compare]
    by_contra hcon
    simp only [Bool.not_eq_false] at hcon
    rcases (containsEq_iff _ _ _).mp hcon with ⟨x, hx, h1, _⟩
    rw [hall x hx] at h1
    exact Bool.false_ne_true h1.symm

theorem C2_amended_witness :
    (IsSWO Nat.blt ∧ 0 < (set.ofKeys [1, 2, 3] Nat.blt).size) ∧
      ((containsEq Nat.blt 2 (set.ofKeys [1, 2, 3] Nat.blt).keys_ = true →
        (set.ofKeys [1, 2, 3] Nat.blt).lower_bound 2 <
            (set.ofKeys [1, 2, 3] Nat.blt).size ∧
        Nat.blt ((set.ofKeys [1, 2, 3] Nat.blt).keys_.getD
          ((set.ofKeys [1, 2, 3] Nat.blt).lower_bound 2) 2) 2 = false ∧
        Nat.blt 2 ((set.ofKeys [1, 2, 3] Nat.blt).keys_.getD
          ((set.ofKeys [1, 2, 3] Nat.blt).lower_bound 2) 2) = false ∧
        (∀ j, j < (set.ofKeys [1, 2, 3] Nat.blt).lower_bound 2 →
          Nat.blt ((set.ofKeys [1, 2, 3] Nat.blt).keys_.getD j 2) 2 = true)) ∧
      (containsEq Nat.blt 2 (set.ofKeys [1, 2, 3] Nat.blt).keys_ = false →
        (set.ofKeys [1, 2, 3] Nat.blt).lower_bound 2 =
          (set.ofKeys [1, 2, 3] Nat.blt).endPos) ∧
      ((∀ x ∈ (set.ofKeys [1, 2, 3] Nat.blt).keys_, Nat.blt 2 x = true) →
        (set.ofKeys [1, 2, 3] Nat.blt).lower_bound 2 =
          (set.ofKeys [1, 2, 3] Nat.blt).endPos) ∧
      ((∀ x ∈ (set.ofKeys [1, 2, 3] Nat.blt).keys_, Nat.blt x 2 = true) →
        (set.ofKeys [1, 2, 3] Nat.blt).lower_bound 2 =
          (set.ofKeys [1, 2, 3] Nat.blt).endPos)) :=
  ⟨⟨blt_isSWO, by decide⟩,
    C2_lower_bound_amended [1, 2, 3] Nat.blt 2 blt_isSWO (by decide)⟩

/-- C3: `count(K)` returns 1 if some element comparator-equal to `K`
occurs among the construction inputs (equivalently, in the storage,
which is a permutation of the inputs), and 0 otherwise — even when the
input contains several comparator-equal copies of `K`, the result is the
indicator 1, never the number of copies. -/
theorem C3_count_indicator (keys : List α) (comp : α → α → Bool) (key : α)
    (hswo : IsSWO comp) :
    (set.ofKeys keys comp).count key =
      if containsEq comp key keys then 1 else 0 := by
  rw [set.count_eq_ite _ _ hswo (set.ofKeys_sorted keys comp hswo),
    set.ofKeys_compare, set.containsEq_ofKeys]

theorem C3_witness :
    IsSWO Nat.blt ∧
      (set.ofKeys [2, 2, 1] Nat.blt).count 2 =
        (if containsEq Nat.blt 2 [2, 2, 1] then 1 else 0) ∧
      (set.ofKeys [2, 2, 1] Nat.blt).count 2 = 1 :=
  ⟨blt_isSWO, C3_count_indicator [2, 2, 1] Nat.blt 2 blt_isSWO, by decide⟩

/-- C4: `find(K)` returns an in-range position holding an element
comparator-equal to `K` whenever such an element is stored, and the end
position otherwise; moreover every key `K` taken from the construction
input is found — `find(K)` is in range, the element there is
comparator-equal to `K`, and `count(K)` is 1. -/
theorem C4_find (keys : List α) (comp : α → α → Bool) (key : α)
    (hswo : IsSWO comp) :
    (containsEq comp key keys = true →
      (set.ofKeys keys comp).find key < (set.ofKeys keys comp).size ∧
      comp ((set.ofKeys keys comp).keys_.getD
        ((set.ofKeys keys comp).find key) key) key = false ∧
      comp key ((set.ofKeys keys comp).keys_.getD
        ((set.ofKeys keys comp).find key) key) = false) ∧
    (containsEq comp key keys = false →
      (set.ofKeys keys comp).find key = (set.ofKeys keys comp).endPos) ∧
    (key ∈ keys →
      (set.ofKeys keys comp).find key < (set.ofKeys keys comp).size ∧
      comp ((set.ofKeys keys comp).keys_.getD
        ((set.ofKeys keys comp).find key) key) key = false ∧
      comp key ((set.ofKeys keys comp).keys_.getD
        ((set.ofKeys keys comp).find key) key) = false ∧
      (set.ofKeys keys comp).count key = 1) := by
  have hfl := set.find_eq_lower_bound (set.ofKeys keys comp) key
  have hhit : containsEq comp key keys = true →
      (set.ofKeys keys comp).find key < (set.ofKeys keys comp).size ∧
      comp ((set.ofKeys keys comp).keys_.getD
        ((set.ofKeys keys comp).find key) key) key = false ∧
      comp key ((set.ofKeys keys comp).keys_.getD
        ((set.ofKeys keys comp).find key) key) = false := by
    intro hc
    rw [← set.containsEq_ofKeys] at hc
    rcases set.lower_bound_hit (set.ofKeys keys comp) key hswo
      (set.ofKeys_sorted keys comp hswo) hc with ⟨_, hlt, h1, h2⟩
    rw [hfl]
    exact ⟨hlt, h2, h1⟩
  refine ⟨hhit, fun hc => ?_, fun hmem => ?_⟩
  · rw [hfl]
    apply set.lower_bound_miss
    rw [set.ofKeys_compare, set.containsEq_ofKeys]
    exact hc
  · have hc : containsEq comp key keys = true := containsEq_of_mem hswo.1 hmem
    refine ⟨(hhit hc).1, (hhit hc).2.1, (hhit hc).2.2, ?_⟩
    rw [C3_count_indicator keys comp key hswo, hc]
    rfl

theorem C4_witness :
    IsSWO Nat.blt ∧ 3 ∈ [5, 3, 1, 4, 2] ∧
      ((set.ofKeys [5, 3, 1, 4, 2] Nat.blt).find 3 <
          (set.ofKeys [5, 3, 1, 4, 2] Nat.blt).size ∧
        Nat.blt ((set.ofKeys [5, 3, 1, 4, 2] Nat.blt).keys_.getD
          ((set.ofKeys [5, 3, 1, 4, 2] Nat.blt).find 3) 3) 3 = false ∧
        Nat.blt 3 ((set.ofKeys [5, 3, 1, 4, 2] Nat.blt).keys_.getD
          ((set.ofKeys [5, 3, 1, 4, 2] Nat.blt).find 3) 3) = false ∧
        (set.ofKeys [5, 3, 1, 4, 2] Nat.blt).count 3 = 1) ∧
      (set.ofKeys [5, 3, 1, 4, 2] Nat.blt).find 3 = 2 :=
  ⟨blt_isSWO, by decide,
    (C4_find [5, 3, 1, 4, 2] Nat.blt 3 blt_isSWO).2.2 (by decide), by decide⟩

/-- C5: `equal_range(K)` returns the pair `(end, end)` when no stored
element is comparator-equal to `K`, and the window `(find K, find K + 1)`
of size exactly 1 when one is — even when the backing storage contains
several comparator-equal copies of `K`; and `upper_bound(K)` returns one
past the found position when `K` is present and the end position when it
is absent. -/
theorem C5_equal_range_upper_bound (keys : List α) (comp : α → α → Bool)
    (key : α) (hswo : IsSWO comp) :
    (containsEq comp key keys = false →
      (set.ofKeys keys comp).equal_range key =
        ((set.ofKeys keys comp).endPos, (set.ofKeys keys comp).endPos) ∧
      (set.ofKeys keys comp).upper_bound key = (set.ofKeys keys comp).endPos) ∧
    (containsEq comp key keys = true →
      (set.ofKeys keys comp).equal_range key =
        ((set.ofKeys keys comp).find key, (set.ofKeys keys comp).find key + 1) ∧
      (set.ofKeys keys comp).find key < (set.ofKeys keys comp).size ∧
      (set.ofKeys keys comp).upper_bound key =
        (set.ofKeys keys comp).find key + 1) := by
  have hfl := set.find_eq_lower_bound (set.ofKeys keys comp) key
  constructor
  · intro hc
    rw [← set.containsEq_ofKeys keys comp key] at hc
    have hmiss := set.lower_bound_miss _ _ hc
    constructor
    · rw [set.equal_range_eq, if_pos hmiss, hmiss]
    · exact set.upper_bound_miss _ _ hc
  · intro hc
    rw [← set.containsEq_ofKeys keys comp key] at hc
    rcases set.lower_bound_hit (set.ofKeys keys comp) key hswo
      (set.ofKeys_sorted keys comp hswo) hc with ⟨heq, hlt, h1, _⟩
    have hne : (set.ofKeys keys comp).lower_bound key ≠
        (set.ofKeys keys comp).endPos := Nat.ne_of_lt hlt
    refine ⟨?_, ?_, ?_⟩
    · rw [set.equal_range_eq, if_neg hne, hfl]
    · rw [hfl]
      exact hlt
    · rw [set.upper_bound_eq, hfl, heq]
      rw [heq] at hne h1
      rw [if_pos ⟨hne, h1⟩]

theorem C5_witness :
    IsSWO Nat.blt ∧
      ((set.ofKeys [2, 2, 1] Nat.blt).equal_range 2 =
          ((set.ofKeys [2, 2, 1] Nat.blt).find 2,
            (set.ofKeys [2, 2, 1] Nat.blt).find 2 + 1) ∧
        (set.ofKeys [2, 2, 1] Nat.blt).find 2 <
          (set.ofKeys [2, 2, 1] Nat.blt).size ∧
        (set.ofKeys [2, 2, 1] Nat.blt).upper_bound 2 =
          (set.ofKeys [2, 2, 1] Nat.blt).find 2 + 1) ∧
      ((set.ofKeys [2, 2, 1] Nat.blt).equal_range 9 =
          ((set.ofKeys [2, 2, 1] Nat.blt).endPos,
            (set.ofKeys [2, 2, 1] Nat.blt).endPos) ∧
        (set.ofKeys [2, 2, 1] Nat.blt).upper_bound 9 =
          (set.ofKeys [2, 2, 1] Nat.blt).endPos) :=
  ⟨blt_isSWO,
    (C5_equal_range_upper_bound [2, 2, 1] Nat.blt 2 blt_isSWO).2 (by decide),
    (C5_equal_range_upper_bound [2, 2, 1] Nat.blt 9 blt_isSWO).1 (by decide)⟩

/-- C6: the storage produced by the construction-time sort is a
permutation of the input multiset — exactly the same keys, none added,
dropped, or replaced, only rearranged.  (This holds for every
comparator, valid or not, so no validity hypothesis is needed.) -/
theorem C6_storage_perm_input (keys : List α) (comp : α → α → Bool) :
    (set.ofKeys keys comp).keys_.Perm keys :=
  bits.quicksort_perm comp keys

/-- C7: constructing from an explicit literal key list whose element
count differs from the declared capacity `N` fails hard — no container
value is produced; when the counts agree the check passes and
construction succeeds with the sorted container. -/
theorem C7_literal_size_check (N : Nat) (keys : List α) (comp : α → α → Bool) :
    (keys.length ≠ N → set.ofLiteral N keys comp = none) ∧
    (keys.length = N → set.ofLiteral N keys comp = some (set.ofKeys keys comp)) := by
  constructor <;> intro h <;> simp [set.ofLiteral, h]

theorem C7_witness :
    set.ofLiteral 5 [1, 2, 3, 4] Nat.blt = none ∧
      set.ofLiteral 5 [5, 3, 1, 4, 2] Nat.blt =
        some (set.ofKeys [5, 3, 1, 4, 2] Nat.blt) :=
  ⟨(C7_literal_size_check 5 [1, 2, 3, 4] Nat.blt).1 (by decide),
    (C7_literal_size_check 5 [5, 3, 1, 4, 2] Nat.blt).2 (by decide)⟩

/-- C8: the `N = 0` specialization answers every query with "not found"
unconditionally: `empty()` is true, `size()` and `max_size()` are 0,
`count` is 0, `find`/`lower_bound`/`upper_bound` return the end
position, `equal_range` returns `(end, end)`, and `begin()` equals
`end()`.  None of this consults the comparator: the results on an
instance `s` coincide with those on any instance `t` carrying an
arbitrary other comparator. -/
theorem C8_empty_specialization (s t : set0 α) (key : α) :
    s.empty = true ∧ s.size = 0 ∧ s.max_size = 0 ∧ s.count key = 0 ∧
    s.find key = s.endPos ∧ s.lower_bound key = s.endPos ∧
    s.upper_bound key = s.endPos ∧
    s.equal_range key = (s.endPos, s.endPos) ∧
    s.beginPos = s.endPos ∧
    s.count key = t.count key ∧ s.find key = t.find key ∧
    s.lower_bound key = t.lower_bound key ∧
    s.upper_bound key = t.upper_bound key ∧
    s.equal_range key = t.equal_range key :=
  ⟨rfl, rfl, rfl, rfl, rfl, rfl, rfl, rfl, rfl, rfl, rfl, rfl, rfl, rfl⟩

/-- C9: `find` and `lower_bound` agree on every nonempty instance, and
for a key not comparator-equal to any stored element `lower_bound`
returns the end position (never an insertion position), exactly like
`find`. -/
theorem C9_find_eq_lower_bound (s : set α) (key : α) (h : 0 < s.size) :
    s.find key = s.lower_bound key ∧
      ((∀ x ∈ s.keys_, s.compare_ x key = true ∨ s.compare_ key x = true) →
        s.lower_bound key = s.endPos) := by
  refine ⟨set.find_eq_lower_bound s key, fun hall => ?_⟩
  apply set.lower_bound_miss
  by_contra hc
  simp only [Bool.not_eq_false] at hc
  rcases (containsEq_iff _ _ _).mp hc with ⟨x, hx, h1, h2⟩
  rcases hall x hx with h3 | h3
  · exact Bool.false_ne_true (h1 ▸ h3)
  · exact Bool.false_ne_true (h2 ▸ h3)

theorem C9_witness :
    0 < (set.ofKeys [1, 2, 3] Nat.blt).size ∧
      ((set.ofKeys [1, 2, 3] Nat.blt).find 0 =
          (set.ofKeys [1, 2, 3] Nat.blt).lower_bound 0 ∧
        ((∀ x ∈ (set.ofKeys [1, 2, 3] Nat.blt).keys_,
            Nat.blt x 0 = true ∨ Nat.blt 0 x = true) →
          (set.ofKeys [1, 2, 3] Nat.blt).lower_bound 0 =
            (set.ofKeys [1, 2, 3] Nat.blt).endPos)) :=
  ⟨by decide, C9_find_eq_lower_bound (set.ofKeys [1, 2, 3] Nat.blt) 0 (by decide)⟩

/-- C10: every query operation is a deterministic, side-effect-free
function of the stored keys and comparator.  The member functions are
`const` in the source and are embedded as pure functions — they return
only their result and no modified container, so no query can change the
stored keys or comparator.  Determinism is stated as extensionality:
two instances agreeing on `compare_` and `keys_` (in particular the same
instance queried twice) give identical results for every operation,
including the capacity observers and the iterator bounds. -/
theorem C10_queries_deterministic (s t : set α) (key : α)
    (hcomp : s.compare_ = t.compare_) (hkeys : s.keys_ = t.keys_) :
    s.count key = t.count key ∧ s.find key = t.find key ∧
    s.lower_bound key = t.lower_bound key ∧
    s.upper_bound key = t.upper_bound key ∧
    s.equal_range key = t.equal_range key ∧
    s.size = t.size ∧ s.empty = t.empty ∧ s.max_size = t.max_size ∧
    s.beginPos = t.beginPos ∧ s.endPos = t.endPos := by
  cases s
  cases t
  cases hcomp
  cases hkeys
  exact ⟨rfl, rfl, rfl, rfl, rfl, rfl, rfl, rfl, rfl, rfl⟩

theorem C10_witness :
    (set.ofKeys [2, 2, 1] Nat.blt).count 2 =
        (set.ofKeys [2, 2, 1] Nat.blt).count 2 ∧
      (set.ofKeys [2, 2, 1] Nat.blt).find 2 =
        (set.ofKeys [2, 2, 1] Nat.blt).find 2 ∧
      (set.ofKeys [2, 2, 1] Nat.blt).lower_bound 2 =
        (set.ofKeys [2, 2, 1] Nat.blt).lower_bound 2 ∧
      (set.ofKeys [2, 2, 1] Nat.blt).upper_bound 2 =
        (set.ofKeys [2, 2, 1] Nat.blt).upper_bound 2 ∧
      (set.ofKeys [2, 2, 1] Nat.blt).equal_range 2 =
        (set.ofKeys [2, 2, 1] Nat.blt).equal_range 2 ∧
      (set.ofKeys [2, 2, 1] Nat.blt).size = (set.ofKeys [2, 2, 1] Nat.blt).size ∧
      (set.ofKeys [2, 2, 1] Nat.blt).empty = (set.ofKeys [2, 2, 1] Nat.blt).empty ∧
      (set.ofKeys [2, 2, 1] Nat.blt).max_size =
        (set.ofKeys [2, 2, 1] Nat.blt).max_size ∧
      (set.ofKeys [2, 2, 1] Nat.blt).beginPos =
        (set.ofKeys [2, 2, 1] Nat.blt).beginPos ∧
      (set.ofKeys [2, 2, 1] Nat.blt).endPos =
        (set.ofKeys [2, 2, 1] Nat.blt).endPos :=
  C10_queries_deterministic (set.ofKeys [2, 2, 1] Nat.blt)
    (set.ofKeys [2, 2, 1] Nat.blt) 2 rfl rfl

end frozen
